import Mathlib

/-!
Shallow embedding of the reverse-mode autodiff engine
(`src/compyute/tensors.py`, `src/compyute/nn/containers.py`,
`src/walnut/nn/layers.py`) and proofs about its specification.

Conventions of the embedding:
* numpy float buffers are modelled as exact rationals (`ℚ`);
* a flat `List ℚ` models an array buffer where only elementwise
  behaviour matters, `List (List ℚ)` models a 2-D array (list of rows);
* fallible or in-place Python behaviour is made explicit
  (state records in, state records out).
-/

namespace Spec2Proof

/-! ### compyute Tensor (`src/compyute/tensors.py`) -/

/-- Device tag; in the source the device is a derived property of the
class of the underlying data buffer. -/
inductive CDevice where
  | cpu
  | cuda
deriving DecidableEq

/-- Dtype tag, `DType(str(self.data.dtype))` in the source. -/
inductive CDType where
  | f16
  | f32
  | f64
  | c64
  | i32
  | i64
  | b8
deriving DecidableEq

/-- `Tensor`: a data buffer, its derived device and dtype tags, and an
optional gradient tensor (`grad: Optional[Tensor] = None`). -/
inductive CTensor where
  | mk (data : List ℚ) (device : CDevice) (dtype : CDType) (grad : Option CTensor)

/-- Decidable equality of tensors (by structural recursion through the
optional gradient). -/
def CTensor.decEq : (a b : CTensor) → Decidable (a = b)
  | .mk d1 v1 t1 g1, .mk d2 v2 t2 g2 =>
    have hg : Decidable (g1 = g2) :=
      match g1, g2 with
      | none, none => isTrue rfl
      | none, some _ => isFalse (by simp)
      | some _, none => isFalse (by simp)
      | some x, some y =>
        match CTensor.decEq x y with
        | isTrue h => isTrue (by rw [h])
        | isFalse h => isFalse (by simpa using h)
    if hd : d1 = d2 then
      if hv : v1 = v2 then
        if ht : t1 = t2 then
          match hg with
          | isTrue h => isTrue (by rw [hd, hv, ht, h])
          | isFalse h => isFalse (by simp [h])
        else isFalse (by simp [ht])
      else isFalse (by simp [hv])
    else isFalse (by simp [hd])

instance : DecidableEq CTensor := CTensor.decEq

/-- The `data` buffer of a tensor. -/
def CTensor.data : CTensor → List ℚ
  | .mk d _ _ _ => d

/-- The `device` property (derived from the data buffer's class). -/
def CTensor.device : CTensor → CDevice
  | .mk _ dev _ _ => dev

/-- The `dtype` property (derived from the data buffer's dtype). -/
def CTensor.dtype : CTensor → CDType
  | .mk _ _ dt _ => dt

/-- The optional `grad` attribute. -/
def CTensor.grad : CTensor → Option CTensor
  | .mk _ _ _ g => g

/-- `data_to_device`: moving a buffer between devices preserves its values. -/
def dataToDevice (d : List ℚ) (_target : CDevice) : List ℚ := d

/-- `astype`: dtype cast of a buffer.  Casts to an integer dtype truncate
toward zero, the boolean cast maps nonzero to 1; casts between float
widths are value-preserving in the exact-rational model. -/
def astype (d : List ℚ) (target : CDType) : List ℚ :=
  match target with
  | .i32 => d.map (fun q => ((if 0 ≤ q then ⌊q⌋ else ⌈q⌉ : ℤ) : ℚ))
  | .i64 => d.map (fun q => ((if 0 ≤ q then ⌊q⌋ else ⌈q⌉ : ℤ) : ℚ))
  | .b8 => d.map (fun q => if q = 0 then 0 else 1)
  | _ => d

/-- `Tensor.to_device`: if the tensor is already on the requested device
the very same tensor is returned; otherwise a new tensor is built from
the moved buffer, and (since `if self.grad:` is true exactly when a
gradient is present, `__bool__` being constantly `True`) the gradient is
moved along recursively. -/
def CTensor.toDevice : CTensor → CDevice → CTensor
  | t@(.mk d dev dt g), target =>
    if dev = target then t
    else
      .mk (dataToDevice d target) target dt
        (match g with
         | none => none
         | some gt => some (gt.toDevice target))

/-- `Tensor.to_type`: if the tensor already has the requested dtype the
very same tensor is returned; otherwise a fresh tensor wrapping the cast
buffer is returned (its `grad` starts out absent, as for any fresh
`Tensor`). -/
def CTensor.toType : CTensor → CDType → CTensor
  | t@(.mk d dev dt _), target =>
    if dt = target then t
    else .mk (astype d target) dev target none

/-- `Tensor.__bool__`: constantly `True`. -/
def CTensor.toBool (_t : CTensor) : Bool := true

/-- `Tensor.__eq__`: returns the elementwise-comparison tensor
`Tensor(self.data == other.data)` (boolean dtype), never a scalar. -/
def CTensor.eqT (a b : CTensor) : CTensor :=
  .mk (List.zipWith (fun x y => if x = y then (1 : ℚ) else 0) a.data b.data)
    a.device .b8 none

/-- `Tensor.__add__` (and the in-place `__iadd__`): elementwise sum of
two same-shape buffers. -/
def tensorAdd (a b : List ℚ) : List ℚ := List.zipWith (· + ·) a b

/-- `Tensor.__radd__` with `other = None`:
`Tensor(self.data + (other or 0.0))`, i.e. the incoming data plus zero. -/
def tensorRadd (incoming : List ℚ) : List ℚ := incoming.map (· + 0)

/-- The gradient-accumulation idiom `existing += incoming` on an optional
gradient buffer: `None + tensor` dispatches to `Tensor.__radd__`, a
present gradient adds elementwise. -/
def accumulateGrad (existing : Option (List ℚ)) (incoming : List ℚ) : List ℚ :=
  match existing with
  | none => tensorRadd incoming
  | some g => tensorAdd g incoming

/-- An all-zero buffer of the same shape as the given one. -/
def zerosLike (l : List ℚ) : List ℚ := l.map (fun _ => 0)

/-! ### 2-D arrays as lists of rows

Used for the containers (`src/compyute/nn/containers.py`) and the
affine layer (`src/walnut/nn/layers.py`, `Linear`).  A 2-D numpy array
of shape `(n, m)` is a list of `n` rows of length `m`. -/

/-- A 2-D array: a list of rows of rationals. -/
abbrev LL := List (List ℚ)

/-- Shape of a 2-D array along its last axis (`arr.shape[-1]`), read off
a rectangular array's first row. -/
def ncols (m : LL) : ℕ := (m.headD []).length

/-- Rectangularity: every row has the given length. -/
def rect (m : LL) (d : ℕ) : Prop := ∀ r ∈ m, r.length = d

/-- Elementwise sum of two same-shape 2-D arrays (numpy `+`). -/
def addLL (a b : LL) : LL := List.zipWith (List.zipWith (· + ·)) a b

/-- `numpy.concatenate(ts, axis=-1)` on same-height 2-D arrays:
rows are appended pairwise. -/
def hconcat (ts : List LL) : LL :=
  match ts with
  | [] => []
  | t :: rest => rest.foldl (fun acc u => List.zipWith (· ++ ·) acc u) t

/-- The column slice `m[:, lo:hi]` (numpy slicing clamps out-of-range
bounds). -/
def colSlice (lo hi : ℕ) (m : LL) : LL :=
  m.map (fun r => (r.drop lo).take (hi - lo))

/-- `numpy.split(m, offs, axis=-1)`: the sections between consecutive
boundary offsets `0, offs…, m.shape[-1]`. -/
def npsplit (offs : List ℕ) (m : LL) : List LL :=
  (List.zip (0 :: offs) (offs ++ [ncols m])).map (fun p => colSlice p.1 p.2 m)

/-- Dot product of two equal-length vectors. -/
def dotQ (a b : List ℚ) : ℚ := (List.zipWith (· * ·) a b).sum

/-- Column `j` of a 2-D array. -/
def getCol (j : ℕ) (m : LL) : List ℚ := m.map (fun r => r.getD j 0)

/-- Matrix product of 2-D arrays (numpy `@`). -/
def matmulLL (a b : LL) : LL :=
  a.map (fun r => (List.range (ncols b)).map (fun j => dotQ r (getCol j b)))

/-- Matrix transpose (the `.T` property). -/
def transposeLL (m : LL) : LL :=
  (List.range (ncols m)).map (fun j => getCol j m)

/-- `numpy.sum(m, axis=0)`: column sums of a 2-D array. -/
def colSums (m : LL) : List ℚ :=
  (List.range (ncols m)).map (fun j => (getCol j m).sum)

/-! ### Module protocol and containers (`src/compyute/nn/containers.py`)

A module's `__call__` takes the input tensor, returns the output and —
capturing the module state of exactly this call — installs the bound
`backward` procedure.  The backward procedure consumes the upstream
gradient and returns the parameter-gradient record it writes (type `G`)
together with the input gradient.  The `set_y`/`set_dy` cache setters
only store debugging copies and do not affect any returned value. -/

/-- A differentiable module: forward returns the output and the
backward procedure bound to this specific call. -/
def CModule (G : Type) := LL → LL × (LL → G × LL)

/-- `SequentialContainer.__call__`: thread the input left-to-right
through the children; when training, install a backward that applies
the children's bound backward procedures in reverse order, collecting
each child's parameter-gradient record. -/
def seqCall (G : Type) (training : Bool) (ms : List (CModule G)) (x : LL) :
    LL × Option (LL → List G × LL) :=
  let res := ms.foldl
    (fun (acc : LL × List (LL → G × LL)) m =>
      let r := m acc.1
      (r.1, r.2 :: acc.2))
    (x, [])
  -- prepending while walking forward leaves the closures in reverse
  -- order, matching `for module in reversed(self.sub_modules)`
  (res.1,
    if training then
      some (fun dy =>
        res.2.foldl
          (fun (acc : List G × LL) bwd =>
            let r := bwd acc.2
            (r.1 :: acc.1, r.2))
          ([], dy))
    else none)

/-- Manual chaining of the children's forward/backward calls: the
specification-side reference for the Sequential container.  Forward
applies the children left-to-right; the composite backward feeds the
upstream gradient to the last child's backward first and hands each
result to the previous child, collecting the per-child
parameter-gradient records in child order. -/
def manualChain (G : Type) : List (CModule G) → LL → LL × (LL → List G × LL)
  | [], x => (x, fun dy => ([], dy))
  | m :: rest, x =>
    let r := m x
    let c := manualChain G rest r.1
    (c.1, fun dy =>
      let inner := c.2 dy
      let own := r.2 inner.2
      (own.1 :: inner.1, own.2))

/-- Sum of the per-child input gradients in
`dx = 0.0; for …: dx += …` — numpy evaluates `0.0 + a` as `a`, after
which same-shape arrays add elementwise. -/
def sumParts : List LL → LL
  | [] => []
  | r :: rest => rest.foldl addLL r

/-- `ParallelContainer.__call__` with the default `concat_axis = -1`:
apply every child to the same input, concatenate the outputs along the
last axis; when training, install a backward that splits the upstream
gradient at the running cumulative sums of the children's output
extents (excluding the final boundary), feeds each chunk to the
corresponding child's bound backward and sums the resulting input
gradients. -/
def parCall (G : Type) (training : Bool) (ms : List (CModule G)) (x : LL) :
    LL × Option (LL → List G × LL) :=
  let ys := ms.map (fun m => m x)
  let y := hconcat (ys.map Prod.fst)
  (y,
    if training then
      some (fun dy =>
        let outLens := ys.map (fun yr => ncols yr.1)
        let splits := (List.range (outLens.length - 1)).map
          (fun i => ((outLens.take (i + 1)).sum))
        let chunks := npsplit splits dy
        let results := List.zipWith (fun (c : LL) yr => yr.2 c) chunks ys
        (results.map Prod.fst, sumParts (results.map Prod.snd)))
    else none)

/-- An affine (bias-free) child module `y = x @ w` with input gradient
`dx = dy @ wᵗ` and weight gradient `dw = xᵗ @ dy`, the parameter
gradient being the record the backward writes. -/
def affineModule (w : LL) : CModule LL :=
  fun x =>
    (matmulLL x w,
     fun dy => (matmulLL (transposeLL x) dy, matmulLL dy (transposeLL w)))

/-- Spec-side description of the Parallel container's backward: the
i-th child's bound backward receives the slice of the upstream gradient
that starts at the running cumulative sum of the earlier children's
output extents and spans the child's own extent; the per-child input
gradients are collected in child order, to be summed.  `off` is the
running boundary offset (`0` at the first child). -/
def parSpecParts (G : Type) : List (CModule G) → LL → ℕ → LL → List LL
  | [], _, _, _ => []
  | m :: rest, x, off, dy =>
    ((m x).2 (colSlice off (off + ncols ((m x).1)) dy)).2 ::
      parSpecParts G rest x (off + ncols ((m x).1)) dy

/-- The running cumulative boundary offsets of a list of extents,
starting from `off` and excluding the final boundary. -/
def cumBounds : List ℕ → ℕ → List ℕ
  | [], _ => []
  | [_], _ => []
  | e :: rest, off => (off + e) :: cumBounds rest (off + e)

/-! ### walnut `Linear` layer (`src/walnut/nn/layers.py`) -/

/-- The state of a `Linear` layer that matters to `backward`: the cached
input `x`, the weights `w`, the bias flag, and the gradient slots. -/
structure LinearLayer where
  x : LL
  w : LL
  useBias : Bool
  wGrad : Option LL
  bGrad : Option (List ℚ)
  xGrad : Option LL
deriving DecidableEq

/-- `Linear.backward`: `x.grad = y.grad @ w.T`,
`w.grad = x.T @ y.grad` (plain assignment), and, with bias enabled,
`b.grad = np.sum(y.grad, axis=0)`.  The upstream gradient `dy` is
`self.y.grad`, fetched from the successor layer by `super().backward()`. -/
def linearBackward (s : LinearLayer) (dy : LL) : LinearLayer :=
  { s with
    xGrad := some (matmulLL dy (transposeLL s.w)),
    wGrad := some (matmulLL (transposeLL s.x) dy),
    bGrad := if s.useBias then some (colSums dy) else s.bGrad }

/-! ### walnut `Dropout` layer (`src/walnut/nn/layers.py`) -/

/-- The layer mode string: `'eval'` or `'train'`. -/
inductive LayerMode where
  | evalMode
  | trainMode
deriving DecidableEq

/-- The state of a `Dropout` layer: the mode, the drop rate, the cached
keep-mask `d_map`, the cached input and output, and the gradient slot. -/
structure DropoutLayer where
  mode : LayerMode
  dRate : ℚ
  dMap : Option (List ℚ)
  xData : List ℚ
  yData : List ℚ
  xGrad : Option (List ℚ)
deriving DecidableEq

/-- `Dropout.forward`: outside training it is the identity and no mask
is drawn; in training the freshly drawn binary keep-mask (the result of
`np.random.choice`, threaded explicitly) is cached in `d_map` and the
output is `x * d_map / (1 - d_rate)`. -/
def dropoutForward (s : DropoutLayer) (drawn : List ℚ) : DropoutLayer :=
  if s.mode = LayerMode.evalMode then { s with yData := s.xData }
  else
    { s with
      dMap := some drawn,
      yData := (List.zipWith (· * ·) s.xData drawn).map (· / (1 - s.dRate)) }

/-- `Dropout.backward`: `x.grad = y.grad * d_map / (1 - d_rate)`, read
from the cached mask; no randomness is consumed.  With no cached mask
the source raises a `TypeError` (contract misuse), modelled as `none`. -/
def dropoutBackward (s : DropoutLayer) (dy : List ℚ) : Option DropoutLayer :=
  match s.dMap with
  | none => none
  | some m =>
    some { s with xGrad := some ((List.zipWith (· * ·) dy m).map (· / (1 - s.dRate))) }

/-! ### 4-D arrays with run-time shape
(for `MaxPooling` in `src/walnut/nn/layers.py`, whose backward changes
the array shape). -/

/-- A 4-D array `(b, c, h, w)` whose shape is part of the value. -/
structure QArr4 where
  b : ℕ
  c : ℕ
  h : ℕ
  w : ℕ
  data : Fin b → Fin c → Fin h → Fin w → ℚ

/-- Number of elements. -/
def QArr4.size (m : QArr4) : ℕ := m.b * m.c * m.h * m.w

/-- Bounds-checked element access (0 outside the array; all uses below
stay in bounds). -/
def QArr4.get (m : QArr4) (bi ci i j : ℕ) : ℚ :=
  if h1 : bi < m.b then
    if h2 : ci < m.c then
      if h3 : i < m.h then
        if h4 : j < m.w then m.data ⟨bi, h1⟩ ⟨ci, h2⟩ ⟨i, h3⟩ ⟨j, h4⟩
        else 0
      else 0
    else 0
  else 0

/-- C-order flat element access `m.flat[t]` (0 outside). -/
def flatGet (m : QArr4) (t : ℕ) : ℚ :=
  m.get (t / (m.w * m.h * m.c)) (t / (m.w * m.h) % m.c) (t / m.w % m.h) (t % m.w)

/-- `numpy.resize(m, (tb, tc, th, tw))`: recycle the C-order flattened
source data into the target shape.  (numpy raises on an empty source;
that case is unreachable below.) -/
def QArr4.resize (m : QArr4) (tb tc th tw : ℕ) : QArr4 :=
  ⟨tb, tc, th, tw, fun bb cc i j =>
    flatGet m ((((bb.val * tc + cc.val) * th + i.val) * tw + j.val) % m.size)⟩

/-- `numpy.repeat(m, k, axis=2)`: each spatial row index is replicated
`k` times consecutively. -/
def repeatA2 (k : ℕ) (m : QArr4) : QArr4 :=
  ⟨m.b, m.c, m.h * k, m.w, fun bb cc i j =>
    m.data bb cc ⟨i.val / k, Nat.div_lt_of_lt_mul (Nat.mul_comm m.h k ▸ i.isLt)⟩ j⟩

/-- `numpy.repeat(m, k, axis=3)`. -/
def repeatA3 (k : ℕ) (m : QArr4) : QArr4 :=
  ⟨m.b, m.c, m.h, m.w * k, fun bb cc i j =>
    m.data bb cc i ⟨j.val / k, Nat.div_lt_of_lt_mul (Nat.mul_comm m.w k ▸ j.isLt)⟩⟩

/-- `MaxPooling.__stretch` with `axis = (2, 3)`: repeat along both
spatial axes, then `numpy.resize` to the target shape. -/
def mpStretch (fa1 fa2 : ℕ) (m : QArr4) (tb tc th tw : ℕ) : QArr4 :=
  (repeatA3 fa2 (repeatA2 fa1 m)).resize tb tc th tw

/-- `MaxPooling.__crop`: cut each spatial dimension down to the largest
multiple of the pooling window. -/
def mpCrop (py px : ℕ) (x : QArr4) : QArr4 :=
  ⟨x.b, x.c, x.h / py * py, x.w / px * px, fun bb cc i j =>
    x.data bb cc ⟨i.val, lt_of_lt_of_le i.isLt (Nat.div_mul_le_self x.h py)⟩
      ⟨j.val, lt_of_lt_of_le j.isLt (Nat.div_mul_le_self x.w px)⟩⟩

/-- `numpy.max` over the pooling window
`x.data[:, :, yy*py:(yy+1)*py, xx*px:(xx+1)*px]` at one `(b, c)`
position; slice bounds clamp as in numpy.  (numpy raises on an empty
window; the loops of the layer never produce one.) -/
def chunkMax (py px : ℕ) (x : QArr4) (bb : Fin x.b) (cc : Fin x.c) (yy xx : ℕ) : ℚ :=
  let vals := (List.range py).flatMap (fun r =>
    (List.range px).filterMap (fun s =>
      if hr : yy * py + r < x.h then
        if hs : xx * px + s < x.w then
          some (x.data bb cc ⟨yy * py + r, hr⟩ ⟨xx * px + s, hs⟩)
        else none
      else none))
  match vals with
  | [] => 0
  | v :: vs => vs.foldl max v

/-- The state of a `MaxPooling` layer after `forward`: the pooling
window, the cached input, the selection map `p_map` and the output. -/
structure MaxPoolState where
  py : ℕ
  px : ℕ
  x : QArr4
  pMap : QArr4
  y : QArr4

/-- `MaxPooling.forward`: the output holds the window maxima (read from
`self.x.data`, with output shape derived from the cropped input), and
`p_map` marks, per window, every input position equal to the stretched
output (`(x_pad == y_s) * 1.0`). -/
def maxPoolForward (py px : ℕ) (x : QArr4) : MaxPoolState :=
  let xc := mpCrop py px x
  let y : QArr4 :=
    ⟨x.b, x.c, xc.h / py, xc.w / px, fun bb cc yy xx => chunkMax py px x bb cc yy.val xx.val⟩
  let ys := mpStretch py px y xc.b xc.c xc.h xc.w
  let pMap : QArr4 :=
    ⟨xc.b, xc.c, xc.h, xc.w, fun bb cc i j =>
      if xc.data bb cc i j = ys.data bb cc i j then 1 else 0⟩
  ⟨py, px, x, pMap, y⟩

/-- `MaxPooling.backward`: stretch the upstream gradient to the shape of
`p_map`, mask it with `p_map`, and slice `[:, :, :x_y, :x_x]` (numpy
slicing clamps, so the result keeps the cropped spatial shape). -/
def maxPoolBackward (s : MaxPoolState) (dy : QArr4) : QArr4 :=
  let dys := mpStretch s.py s.px dy s.pMap.b s.pMap.c s.pMap.h s.pMap.w
  let prod : QArr4 :=
    ⟨s.pMap.b, s.pMap.c, s.pMap.h, s.pMap.w, fun bb cc i j =>
      dys.data bb cc i j * s.pMap.data bb cc i j⟩
  ⟨prod.b, prod.c, min s.x.h prod.h, min s.x.w prod.w, fun bb cc i j =>
    prod.data bb cc ⟨i.val, lt_of_lt_of_le i.isLt (min_le_right _ _)⟩
      ⟨j.val, lt_of_lt_of_le j.isLt (min_le_right _ _)⟩⟩

/-! ### walnut `Convolution` layer (`src/walnut/nn/layers.py`)

The layer convolves via `numpy.fft.fft2` / `ifft2`.  Complex numbers
are modelled as pairs of rationals; the primitive root `e^{-2πi/n}`
used by a size-`n` DFT lies in `ℚ[i]` exactly for `n ∈ {1, 2, 4}`,
which covers every spatial size the theorems below evaluate. -/

/-- A complex number with rational parts. -/
abbrev CQ := ℚ × ℚ

/-- Complex multiplication. -/
def cmul (a b : CQ) : CQ := (a.1 * b.1 - a.2 * b.2, a.1 * b.2 + a.2 * b.1)

/-- Complex conjugation. -/
def conjCQ (a : CQ) : CQ := (a.1, -a.2)

/-- Complex natural power. -/
def cpow (a : CQ) : ℕ → CQ
  | 0 => (1, 0)
  | n + 1 => cmul a (cpow a n)

/-- The DFT root `e^{-2πi/n}` for `n ∈ {1, 2, 4}` (else junk, unused). -/
def negExpRoot (n : ℕ) : CQ :=
  if n = 1 then (1, 0) else if n = 2 then (-1, 0) else if n = 4 then (0, -1) else (0, 0)

/-- A 2-D rational matrix. -/
abbrev QMat (h w : ℕ) := Fin h → Fin w → ℚ

/-- The crop-or-zero-pad numpy applies to the last two axes when
`fft2(x, s=(s1, s2))` is given an explicit output shape. -/
def truncPad2 (s1 s2 : ℕ) {h w : ℕ} (x : Fin h → Fin w → CQ) :
    Fin s1 → Fin s2 → CQ :=
  fun i j =>
    if hi : i.val < h then
      if hj : j.val < w then x ⟨i.val, hi⟩ ⟨j.val, hj⟩ else 0
    else 0

/-- The 2-D discrete Fourier transform over the last two axes
(`numpy.fft.fft2` semantics, root `e^{-2πi/n}` per axis). -/
def dft2 {h w : ℕ} (x : Fin h → Fin w → CQ) : Fin h → Fin w → CQ :=
  fun k1 k2 =>
    ∑ j1 : Fin h, ∑ j2 : Fin w,
      cmul (cmul (cpow (negExpRoot h) (j1.val * k1.val))
                 (cpow (negExpRoot w) (j2.val * k2.val)))
        (x j1 j2)

/-- The inverse 2-D DFT (`numpy.fft.ifft2`: conjugate root, `1/(h·w)`
normalization). -/
def idft2 {h w : ℕ} (x : Fin h → Fin w → CQ) : Fin h → Fin w → CQ :=
  fun k1 k2 =>
    cmul (((h * w : ℕ) : ℚ)⁻¹, 0)
      (∑ j1 : Fin h, ∑ j2 : Fin w,
        cmul (cmul (cpow (conjCQ (negExpRoot h)) (j1.val * k1.val))
                   (cpow (conjCQ (negExpRoot w)) (j2.val * k2.val)))
          (x j1 j2))

/-- `fft2` of a real array at an explicit output shape `s`. -/
def fft2R (s1 s2 : ℕ) {h w : ℕ} (x : QMat h w) : Fin s1 → Fin s2 → CQ :=
  dft2 (truncPad2 s1 s2 (fun i j => ((x i j : ℚ), (0 : ℚ))))

/-- The spatial core of `Convolution.__convolve`: fft both operands at
`x1`'s spatial shape, multiply the transforms (the `exp_axis` expansion
pairs one spatial slice of each operand), inverse-transform and take
the real part. -/
def cconvCore {h w h2 w2 : ℕ} (x1 : QMat h w) (x2 : QMat h2 w2) : QMat h w :=
  fun i j =>
    (idft2 (fun p q => cmul (fft2R h w x1 p q) (fft2R h w x2 p q)) i j).1

/-- `np.flip(w, axis=(2, 3))` on one kernel: both spatial axes reversed. -/
def flipKernel {ky kx : ℕ} (m : QMat ky kx) : QMat ky kx :=
  fun yy xx =>
    m ⟨ky - 1 - yy.val, by have := yy.isLt; omega⟩
      ⟨kx - 1 - xx.val, by have := xx.isLt; omega⟩

/-- Output spatial extent of the convolution forward pass along one
axis: the crop `[k-1:]` of a length-`n` axis. -/
def outExtent (n k : ℕ) : ℕ := n - (k - 1)

/-- `Convolution.forward` with the default valid padding (modelled from
the spec: valid padding adds nothing, `x_pad = x`): flip the kernel,
convolve (`exp_axis = (1, 0)`), sum over input channels, crop
`[:, :, ky-1:, kx-1:]`, and add the broadcast bias if enabled. -/
def convForwardData (b ci co h w ky kx : ℕ)
    (x : Fin b → Fin ci → QMat h w)
    (wgt : Fin co → Fin ci → QMat ky kx)
    (bias : Fin co → ℚ) (useBias : Bool) :
    Fin b → Fin co → QMat (outExtent h ky) (outExtent w kx) :=
  fun bb oo yy xx =>
    (∑ ii : Fin ci,
      cconvCore (x bb ii) (flipKernel (wgt oo ii))
        ⟨yy.val + (ky - 1), by have := yy.isLt; simp only [outExtent] at this; omega⟩
        ⟨xx.val + (kx - 1), by have := xx.isLt; simp only [outExtent] at this; omega⟩)
    + (if useBias then bias oo else 0)

/-- The bias-gradient assignment of `Convolution.backward`:
`self.b.grad = np.sum(self.y.data, axis=(0, 2, 3))` — note that the
source sums the cached forward *output* `y.data`. -/
def convBackwardBiasGrad (b co hy wx : ℕ) (yData : Fin b → Fin co → QMat hy wx) :
    Fin co → ℚ :=
  fun oo => ∑ bb : Fin b, ∑ yy : Fin hy, ∑ xx : Fin wx, yData bb oo yy xx

/-- The quantity the specification prescribes for the bias gradient:
the sum of the upstream gradient `y.grad` over batch and both spatial
axes. -/
def sumOverBatchAndSpatial (b co hy wx : ℕ)
    (yGrad : Fin b → Fin co → QMat hy wx) : Fin co → ℚ :=
  fun oo => ∑ bb : Fin b, ∑ yy : Fin hy, ∑ xx : Fin wx, yGrad bb oo yy xx

/-- Mutation/raise events of `Convolution.compile`, in execution order. -/
inductive ConvEvent where
  | setW
  | setB
  | setParams
  | cacheY
  | raiseValidation
deriving DecidableEq

/-- The event trace of `Convolution.compile`: initialize the weights,
initialize the bias when enabled, set the parameter list, run
`forward()` (caching the output), and only then raise the validation
error when the output spatial extent is smaller than the kernel. -/
def convCompileEvents (h w ky kx : ℕ) (useBias : Bool) : List ConvEvent :=
  [ConvEvent.setW] ++ (if useBias then [ConvEvent.setB] else []) ++
    [ConvEvent.setParams, ConvEvent.cacheY] ++
    (if outExtent h ky < ky ∨ outExtent w kx < kx then [ConvEvent.raiseValidation] else [])

/-! ## Theorems -/

/-- Adding a zero buffer elementwise is the identity. -/
theorem zipWith_add_zerosLike (inc : List ℚ) :
    List.zipWith (· + ·) (zerosLike inc) inc = inc := by
  induction inc with
  | nil => rfl
  | cons a t ih => simp [zerosLike, List.zipWith] at ih ⊢; exact ih

/-- C8: gradient accumulation into an absent gradient yields exactly the
incoming value, and equals accumulation into a zero-initialized
gradient; accumulation into a present gradient is the elementwise sum;
an absent gradient never errors (the accumulation function is total). -/
theorem c8_gradient_accumulation (g inc : List ℚ) :
    accumulateGrad none inc = inc ∧
    accumulateGrad none inc = accumulateGrad (some (zerosLike inc)) inc ∧
    accumulateGrad (some g) inc = List.zipWith (· + ·) g inc := by
  refine ⟨?_, ?_, rfl⟩
  · simp [accumulateGrad, tensorRadd]
  · simp [accumulateGrad, tensorRadd, tensorAdd, zipWith_add_zerosLike]

/-- Unfolding lemma for `toDevice` on a constructor. -/
theorem toDevice_mk (d : List ℚ) (v : CDevice) (ty : CDType) (g : Option CTensor)
    (target : CDevice) :
    (CTensor.mk d v ty g).toDevice target =
      if v = target then CTensor.mk d v ty g
      else
        CTensor.mk (dataToDevice d target) target ty
          (match g with
           | none => none
           | some gt => some (gt.toDevice target)) := by
  cases g <;> simp only [CTensor.toDevice]

/-- Unfolding lemma for `toType` on a constructor. -/
theorem toType_mk (d : List ℚ) (v : CDevice) (ty : CDType) (g : Option CTensor)
    (target : CDType) :
    (CTensor.mk d v ty g).toType target =
      if ty = target then CTensor.mk d v ty g
      else CTensor.mk (astype d target) v target none := rfl

/-- The `device` accessor on a constructor. -/
theorem device_mk (d : List ℚ) (v : CDevice) (ty : CDType) (g : Option CTensor) :
    (CTensor.mk d v ty g).device = v := rfl

/-- The `dtype` accessor on a constructor. -/
theorem dtype_mk (d : List ℚ) (v : CDevice) (ty : CDType) (g : Option CTensor) :
    (CTensor.mk d v ty g).dtype = ty := rfl

/-- C9: `to_device` returns the very same tensor when the tensor is
already on the requested device, else a new tensor on the requested
device; `to_type` returns the very same tensor when the dtype already
matches, else a new tensor with the requested dtype. -/
theorem c9_conversions_idempotent (t : CTensor) (dev : CDevice) (dt : CDType) :
    (t.device = dev → t.toDevice dev = t) ∧
    (t.device ≠ dev → (t.toDevice dev).device = dev ∧ t.toDevice dev ≠ t) ∧
    (t.dtype = dt → t.toType dt = t) ∧
    (t.dtype ≠ dt → (t.toType dt).dtype = dt ∧ t.toType dt ≠ t) := by
  obtain ⟨d, v, ty, g⟩ := t
  refine ⟨fun h => ?_, fun h => ?_, fun h => ?_, fun h => ?_⟩
  · rw [device_mk] at h
    rw [toDevice_mk, if_pos h]
  · rw [device_mk] at h
    rw [toDevice_mk, if_neg h]
    refine ⟨device_mk .., fun heq => h ?_⟩
    have := congrArg CTensor.device heq
    rw [device_mk, device_mk] at this
    exact this.symm
  · rw [dtype_mk] at h
    rw [toType_mk, if_pos h]
  · rw [dtype_mk] at h
    rw [toType_mk, if_neg h]
    refine ⟨dtype_mk .., fun heq => h ?_⟩
    have := congrArg CTensor.dtype heq
    rw [dtype_mk, dtype_mk] at this
    exact this.symm

/-- Witness for C9 at a concrete tensor: conversion to the matching
device returns the same tensor; conversion to the other device yields a
tensor on that device. -/
theorem c9_witness :
    (CTensor.mk [1] .cpu .f32 none).toDevice .cpu = CTensor.mk [1] .cpu .f32 none ∧
    ((CTensor.mk [1] .cpu .f32 none).toDevice .cuda).device = .cuda ∧
    (CTensor.mk [1] .cpu .f32 none).toType .f32 = CTensor.mk [1] .cpu .f32 none ∧
    ((CTensor.mk [1] .cpu .f32 none).toType .f64).dtype = .f64 := by
  refine ⟨?_, ?_, ?_, ?_⟩
  · exact (c9_conversions_idempotent (CTensor.mk [1] .cpu .f32 none) .cpu .f32).1 rfl
  · exact ((c9_conversions_idempotent (CTensor.mk [1] .cpu .f32 none) .cuda .f32).2.1
      (by decide)).1
  · exact (c9_conversions_idempotent (CTensor.mk [1] .cpu .f32 none) .cpu .f32).2.2.1 rfl
  · exact ((c9_conversions_idempotent (CTensor.mk [1] .cpu .f32 none) .cpu .f64).2.2.2
      (by decide)).1

/-- C10: every tensor is truthy — `bool(t)` is `True` for every tensor,
in particular for the elementwise tensor produced by `==` and for a
present all-zero gradient tensor. -/
theorem c10_tensors_truthy :
    (∀ t : CTensor, t.toBool = true) ∧
    (∀ a b : CTensor, (a.eqT b).toBool = true) ∧
    (∀ (d : List ℚ) (dev : CDevice) (dt : CDType),
      (CTensor.mk (zerosLike d) dev dt none).toBool = true) :=
  ⟨fun _ => rfl, fun _ _ => rfl, fun _ _ _ => rfl⟩

/-- C7: in training mode, `backward` right after `forward` multiplies
the upstream gradient elementwise by the very mask drawn in that
forward call and by the scale `1/(1 - drop_rate)`; no new randomness is
consumed (the backward reads only the cached `d_map`). -/
theorem c7_dropout_mask_reuse (s : DropoutLayer) (drawn dy : List ℚ)
    (h : s.mode = LayerMode.trainMode) :
    dropoutBackward (dropoutForward s drawn) dy =
      some { mode := s.mode, dRate := s.dRate, dMap := some drawn,
             xData := s.xData,
             yData := (List.zipWith (· * ·) s.xData drawn).map (· / (1 - s.dRate)),
             xGrad := some ((List.zipWith (· * ·) dy drawn).map (· / (1 - s.dRate))) } := by
  simp [dropoutForward, dropoutBackward, h]

/-- Witness for C7 at a concrete layer state:
`drop_rate = 1/2`, input `[2, 4]`, mask `[1, 0]`, upstream `[10, 20]`
gives input gradient `[20, 0]`. -/
theorem c7_witness :
    dropoutBackward
        (dropoutForward ⟨.trainMode, 1/2, none, [2, 4], [], none⟩ [1, 0]) [10, 20] =
      some ⟨.trainMode, 1/2, some [1, 0], [2, 4], [4, 0], some [20, 0]⟩ := by
  rw [c7_dropout_mask_reuse ⟨.trainMode, 1/2, none, [2, 4], [], none⟩ [1, 0] [10, 20] rfl]
  norm_num

/-- Counterexample for C3: with an existing weight gradient `[[5]]`,
input `[[1]]`, weight `[[1]]` and upstream gradient `[[1]]`, backward
does not produce the accumulated value `[[5]] + xᵗ@dy = [[6]]`. -/
theorem c3_counterexample :
    (linearBackward ⟨[[1]], [[1]], true, some [[5]], none, none⟩ [[1]]).wGrad ≠
      some (addLL [[5]] (matmulLL (transposeLL [[1]]) [[1]])) := by
  simp [linearBackward, addLL, matmulLL, transposeLL, getCol, ncols, dotQ,
    List.range_succ]

/-- C3 (amended): `Linear.backward` sets the weight gradient to
`xᵗ @ dy`, overwriting — the result is identical whatever gradient the
weight tensor held before. -/
theorem c3_weight_grad_overwritten (s : LinearLayer) (g0 : LL) (dy : LL)
    (_h : s.wGrad = some g0) :
    (linearBackward s dy).wGrad = some (matmulLL (transposeLL s.x) dy) ∧
    (linearBackward s dy).wGrad = (linearBackward { s with wGrad := none } dy).wGrad :=
  ⟨rfl, rfl⟩

/-- Witness for C3 at the counterexample state: backward replaces the
stored gradient `[[5]]` by `xᵗ@dy = [[1]]`. -/
theorem c3_witness :
    (linearBackward ⟨[[1]], [[1]], true, some [[5]], none, none⟩ [[1]]).wGrad =
      some (matmulLL (transposeLL [[1]]) [[1]]) ∧
    matmulLL (transposeLL [[1]]) ([[1]] : LL) = [[1]] := by
  refine ⟨(c3_weight_grad_overwritten ⟨[[1]], [[1]], true, some [[5]], none, none⟩
    [[5]] [[1]] rfl).1, by simp [matmulLL, transposeLL, getCol, ncols, dotQ, List.range_succ]⟩

/-- C1: at a concrete forward/backward pair (1×1 input `3`, 1×1 kernel
`2`, bias `0`, upstream gradient `1`), the code's bias-gradient
assignment sums the forward output (`6`), not the upstream gradient
(`1`). -/
theorem c1_bias_grad_sums_output_not_gradient :
    convBackwardBiasGrad 1 1 (outExtent 1 1) (outExtent 1 1)
        (convForwardData 1 1 1 1 1 1 1 (fun _ _ _ _ => 3) (fun _ _ _ _ => 2)
          (fun _ => 0) true) ⟨0, one_pos⟩ = 6 ∧
    sumOverBatchAndSpatial 1 1 1 1 (fun _ _ _ _ => 1) ⟨0, one_pos⟩ = 1 ∧
    convBackwardBiasGrad 1 1 (outExtent 1 1) (outExtent 1 1)
        (convForwardData 1 1 1 1 1 1 1 (fun _ _ _ _ => 3) (fun _ _ _ _ => 2)
          (fun _ => 0) true) ⟨0, one_pos⟩ ≠
      sumOverBatchAndSpatial 1 1 1 1 (fun _ _ _ _ => 1) ⟨0, one_pos⟩ := by
  have h1 : convBackwardBiasGrad 1 1 (outExtent 1 1) (outExtent 1 1)
      (convForwardData 1 1 1 1 1 1 1 (fun _ _ _ _ => 3) (fun _ _ _ _ => 2)
        (fun _ => 0) true) ⟨0, one_pos⟩ = 6 := by
    show convBackwardBiasGrad 1 1 1 1
      (convForwardData 1 1 1 1 1 1 1 (fun _ _ _ _ => 3) (fun _ _ _ _ => 2)
        (fun _ => 0) true) ⟨0, one_pos⟩ = 6
    simp [convBackwardBiasGrad, convForwardData, cconvCore, idft2, dft2, fft2R,
      truncPad2, cmul, cpow, negExpRoot, conjCQ, flipKernel, outExtent,
      Fin.sum_univ_one]
    norm_num
  have h2 : sumOverBatchAndSpatial 1 1 1 1 (fun _ _ _ _ => 1) ⟨0, one_pos⟩ = 1 := by
    simp [sumOverBatchAndSpatial, Fin.sum_univ_one]
  exact ⟨h1, h2, by rw [h1, h2]; norm_num⟩

/-- Counterexample for C5: at input extent 2×2 with kernel 3×3 the
validation error is raised, but the weights, bias, parameter list and
cached output are all mutated before the raise. -/
theorem c5_counterexample :
    ConvEvent.raiseValidation ∈ convCompileEvents 2 2 3 3 true ∧
    (convCompileEvents 2 2 3 3 true).takeWhile (· != ConvEvent.raiseValidation) =
      [ConvEvent.setW, ConvEvent.setB, ConvEvent.setParams, ConvEvent.cacheY] := by
  decide

/-- C5 (amended): `Convolution.compile` raises the validation error
exactly when the output spatial extent is smaller than the kernel in
either dimension, but the raise happens only after the weights, the
parameter list and the cached output (and the bias when enabled) have
been set. -/
theorem c5_validation_raised_after_mutation (h w ky kx : ℕ) (useBias : Bool) :
    ((convCompileEvents h w ky kx useBias).contains ConvEvent.raiseValidation =
      (decide (outExtent h ky < ky) || decide (outExtent w kx < kx))) ∧
    [ConvEvent.setW, ConvEvent.setParams, ConvEvent.cacheY].Sublist
      ((convCompileEvents h w ky kx useBias).takeWhile (· != ConvEvent.raiseValidation)) := by
  by_cases h1 : outExtent h ky < ky <;> by_cases h2 : outExtent w kx < kx <;>
    cases useBias <;> simp [convCompileEvents, h1, h2]

/-- The forward fold of the Sequential container computes the chained
output, and folding the collected backward closures from any start
state applies the spec-side chained backward first and the previously
collected closures afterwards. -/
theorem seqCall_foldl_spec (G : Type) (ms : List (CModule G)) :
    ∀ (x : LL) (cls : List (LL → G × LL)) (s : List G × LL),
      ((ms.foldl (fun acc m => ((m acc.1).1, (m acc.1).2 :: acc.2)) (x, cls)).1
          = (manualChain G ms x).1) ∧
      ((ms.foldl (fun acc m => ((m acc.1).1, (m acc.1).2 :: acc.2)) (x, cls)).2.foldl
          (fun a b => ((b a.2).1 :: a.1, (b a.2).2)) s =
        cls.foldl (fun a b => ((b a.2).1 :: a.1, (b a.2).2))
          (((manualChain G ms x).2 s.2).1 ++ s.1, ((manualChain G ms x).2 s.2).2)) := by
  induction ms with
  | nil => intro x cls s; simp [manualChain]
  | cons m ms ih =>
    intro x cls s
    constructor
    · simpa [manualChain] using (ih (m x).1 ((m x).2 :: cls) s).1
    · have h2 := (ih (m x).1 ((m x).2 :: cls) s).2
      simp only [List.foldl_cons] at h2 ⊢
      rw [h2]
      simp [manualChain, List.cons_append]

/-- C6: in training mode the Sequential container's forward equals the
left-to-right application of the children, a backward procedure is
installed, and that backward returns the same input gradient and the
same per-child parameter-gradient records as manually chaining the
children's forward and backward calls. -/
theorem c6_sequential_refines_manual_chain (G : Type) (ms : List (CModule G))
    (x dy : LL) :
    (seqCall G true ms x).1 = (manualChain G ms x).1 ∧
    (seqCall G true ms x).2.map (fun f => f dy) = some ((manualChain G ms x).2 dy) := by
  constructor
  · exact (seqCall_foldl_spec G ms x [] ([], dy)).1
  · have h2 := (seqCall_foldl_spec G ms x [] ([], dy)).2
    simp only [List.foldl_nil] at h2
    simpa [seqCall] using congrArg some (h2.trans (by simp))

/-- Counterexample for C2: for a `(1,1,3,3)` input and a `(2,2)` window,
max-pooling backward returns a gradient whose spatial height is `2`, not
the input's original height `3` — the result has the cropped shape, not
the pre-crop shape. -/
theorem c2_counterexample :
    (maxPoolBackward
        (maxPoolForward 2 2 ⟨1, 1, 3, 3, fun _ _ i j => ((i.val * 3 + j.val : ℕ) : ℚ)⟩)
        ⟨1, 1, 1, 1, fun _ _ _ _ => 1⟩).h ≠
      (⟨1, 1, 3, 3, fun _ _ i j => ((i.val * 3 + j.val : ℕ) : ℚ)⟩ : QArr4).h := by
  decide

/-- Flattening two bounded indices stays within the flattened bound. -/
theorem flatIdx_lt {a A b B : ℕ} (ha : a < A) (hb : b < B) : a * B + b < A * B := by
  calc a * B + b < a * B + B := by omega
    _ = (a + 1) * B := by ring
    _ ≤ A * B := Nat.mul_le_mul_right B ha

/-- Remainder of a flat index recovers the minor coordinate. -/
theorem unflat_mod {X j w : ℕ} (hj : j < w) : (X * w + j) % w = j := by
  rw [Nat.mul_comm X w, Nat.mul_add_mod]; exact Nat.mod_eq_of_lt hj

/-- Quotient of a flat index recovers the major coordinate. -/
theorem unflat_div {X j w : ℕ} (hj : j < w) : (X * w + j) / w = X := by
  rw [Nat.mul_comm X w, Nat.mul_add_div (by omega : 0 < w), Nat.div_eq_of_lt hj,
    Nat.add_zero]

/-- `get` agrees with `data` inside the bounds. -/
theorem get_eq_data (m : QArr4) (bi ci i j : ℕ) (h1 : bi < m.b) (h2 : ci < m.c)
    (h3 : i < m.h) (h4 : j < m.w) :
    m.get bi ci i j = m.data ⟨bi, h1⟩ ⟨ci, h2⟩ ⟨i, h3⟩ ⟨j, h4⟩ := by
  simp [QArr4.get, h1, h2, h3, h4]

/-- `numpy.resize` to the array's own shape is the identity (the flat
round trip recovers every coordinate). -/
theorem resize_get_self (m : QArr4) (bi ci i j : ℕ)
    (hbi : bi < m.b) (hci : ci < m.c) (hi : i < m.h) (hj : j < m.w) :
    (m.resize m.b m.c m.h m.w).get bi ci i j = m.get bi ci i j := by
  have hsize : ((bi * m.c + ci) * m.h + i) * m.w + j < m.size :=
    flatIdx_lt (flatIdx_lt (flatIdx_lt hbi hci) hi) hj
  rw [get_eq_data (m.resize m.b m.c m.h m.w) bi ci i j hbi hci hi hj]
  show flatGet m ((((bi * m.c + ci) * m.h + i) * m.w + j) % m.size) = m.get bi ci i j
  rw [Nat.mod_eq_of_lt hsize]
  have e2 : (((bi * m.c + ci) * m.h + i) * m.w + j) / m.w =
      (bi * m.c + ci) * m.h + i := unflat_div hj
  have e4 : (((bi * m.c + ci) * m.h + i) * m.w + j) / (m.w * m.h) =
      bi * m.c + ci := by
    rw [← Nat.div_div_eq_div_mul, e2]; exact unflat_div hi
  have e6 : (((bi * m.c + ci) * m.h + i) * m.w + j) / (m.w * m.h * m.c) = bi := by
    rw [← Nat.div_div_eq_div_mul, e4]; exact unflat_div hci
  show m.get _ _ _ _ = m.get bi ci i j
  rw [unflat_mod hj, e6, e4, unflat_mod hci, e2, unflat_mod hi]

/-- Indexing the doubly repeated array divides each spatial coordinate
by its repetition factor. -/
theorem repeat_get (py px : ℕ) (m : QArr4) (bi ci i j : ℕ)
    (hbi : bi < m.b) (hci : ci < m.c) (hi : i < m.h * py) (hj : j < m.w * px) :
    (repeatA3 px (repeatA2 py m)).get bi ci i j = m.get bi ci (i / py) (j / px) := by
  have hi2 : i / py < m.h := Nat.div_lt_of_lt_mul (Nat.mul_comm m.h py ▸ hi)
  have hj2 : j / px < m.w := Nat.div_lt_of_lt_mul (Nat.mul_comm m.w px ▸ hj)
  rw [get_eq_data (repeatA3 px (repeatA2 py m)) bi ci i j hbi hci hi hj,
    get_eq_data m bi ci (i / py) (j / px) hbi hci hi2 hj2]
  rfl

/-- An in-bounds entry of the max-pooling backward result is the
stretched upstream gradient times the selection map. -/
theorem maxPoolBackward_get (s : MaxPoolState) (dy : QArr4) (bi ci i j : ℕ)
    (h1 : bi < s.pMap.b) (h2 : ci < s.pMap.c)
    (h3 : i < s.x.h) (h3' : i < s.pMap.h)
    (h4 : j < s.x.w) (h4' : j < s.pMap.w) :
    (maxPoolBackward s dy).get bi ci i j =
      (mpStretch s.py s.px dy s.pMap.b s.pMap.c s.pMap.h s.pMap.w).get bi ci i j *
        s.pMap.get bi ci i j := by
  rw [get_eq_data (maxPoolBackward s dy) bi ci i j h1 h2 (lt_min h3 h3') (lt_min h4 h4'),
    get_eq_data (mpStretch s.py s.px dy s.pMap.b s.pMap.c s.pMap.h s.pMap.w)
      bi ci i j h1 h2 h3' h4',
    get_eq_data s.pMap bi ci i j h1 h2 h3' h4']
  rfl

/-- C2 (amended): for any input, backward after forward returns a
gradient of the *cropped* shape (each spatial dimension rounded down to
a multiple of the window) — positions outside the cropped region are
dropped, not zero-filled — and every entry inside the cropped region is
the stretched upstream gradient masked by the selection map. -/
theorem c2_maxpool_backward_cropped (py px : ℕ) (x dy : QArr4)
    (hb : dy.b = x.b) (hc : dy.c = x.c)
    (hh : dy.h = x.h / py) (hw : dy.w = x.w / px)
    (bi ci i j : ℕ) (hbi : bi < x.b) (hci : ci < x.c)
    (hi : i < x.h / py * py) (hj : j < x.w / px * px) :
    (maxPoolBackward (maxPoolForward py px x) dy).b = x.b ∧
    (maxPoolBackward (maxPoolForward py px x) dy).c = x.c ∧
    (maxPoolBackward (maxPoolForward py px x) dy).h = x.h / py * py ∧
    (maxPoolBackward (maxPoolForward py px x) dy).w = x.w / px * px ∧
    (maxPoolBackward (maxPoolForward py px x) dy).get bi ci i j =
      dy.get bi ci (i / py) (j / px) *
        (maxPoolForward py px x).pMap.get bi ci i j := by
  have hxh : x.h / py * py ≤ x.h := Nat.div_mul_le_self x.h py
  have hxw : x.w / px * px ≤ x.w := Nat.div_mul_le_self x.w px
  have hb1 : bi < dy.b := by rw [hb]; exact hbi
  have hc1 : ci < dy.c := by rw [hc]; exact hci
  have hh1 : i < dy.h * py := by rw [hh]; exact hi
  have hw1 : j < dy.w * px := by rw [hw]; exact hj
  refine ⟨rfl, rfl, min_eq_right hxh, min_eq_right hxw, ?_⟩
  rw [maxPoolBackward_get (maxPoolForward py px x) dy bi ci i j hbi hci
    (lt_of_lt_of_le hi hxh) hi (lt_of_lt_of_le hj hxw) hj]
  congr 1
  show ((repeatA3 px (repeatA2 py dy)).resize x.b x.c (x.h / py * py)
    (x.w / px * px)).get bi ci i j = dy.get bi ci (i / py) (j / px)
  rw [← hb, ← hc, show x.h / py * py = dy.h * py by rw [hh],
    show x.w / px * px = dy.w * px by rw [hw]]
  exact (resize_get_self (repeatA3 px (repeatA2 py dy)) bi ci i j hb1 hc1 hh1 hw1).trans
    (repeat_get py px dy bi ci i j hb1 hc1 hh1 hw1)

/-- Witness for C2 (amended) at the `(1,1,3,3)` input `0..8` with a
`(2,2)` window and an all-ones `(1,1,1,1)` upstream gradient: the
backward result has spatial shape `2×2` and its entry at `(1,1)` (the
argmax corner of the single window) carries gradient `1`. -/
theorem c2_witness :
    (maxPoolBackward
        (maxPoolForward 2 2 ⟨1, 1, 3, 3, fun _ _ i j => ((i.val * 3 + j.val : ℕ) : ℚ)⟩)
        ⟨1, 1, 1, 1, fun _ _ _ _ => 1⟩).h = 2 ∧
    (maxPoolBackward
        (maxPoolForward 2 2 ⟨1, 1, 3, 3, fun _ _ i j => ((i.val * 3 + j.val : ℕ) : ℚ)⟩)
        ⟨1, 1, 1, 1, fun _ _ _ _ => 1⟩).get 0 0 1 1 = 1 := by
  have h := c2_maxpool_backward_cropped 2 2
    ⟨1, 1, 3, 3, fun _ _ i j => ((i.val * 3 + j.val : ℕ) : ℚ)⟩
    ⟨1, 1, 1, 1, fun _ _ _ _ => 1⟩ rfl rfl (by decide) (by decide) 0 0 1 1
    (by decide) (by decide) (by decide) (by decide)
  refine ⟨h.2.2.1, ?_⟩
  rw [h.2.2.2.2]
  simp [maxPoolForward, mpCrop, mpStretch, QArr4.resize, QArr4.size, repeatA2,
    repeatA3, flatGet, QArr4.get, chunkMax, List.range_succ, max_def]
  norm_num

/-- A nonempty rectangular array's last-axis extent is its row length. -/
theorem ncols_of_rect {m : LL} {d : ℕ} (hm : m ≠ []) (hr : rect m d) :
    ncols m = d := by
  cases m with
  | nil => simp at hm
  | cons r t => exact hr r (by simp)

/-- Matrix product row count. -/
theorem matmulLL_length (a b : LL) : (matmulLL a b).length = a.length := by
  simp [matmulLL]

/-- Matrix product rows all have the right operand's column count. -/
theorem matmulLL_rect (a b : LL) : rect (matmulLL a b) (ncols b) := by
  intro r hr
  simp only [matmulLL, List.mem_map] at hr
  obtain ⟨row, _, rfl⟩ := hr
  simp

/-- Matrix product column count (nonempty left operand). -/
theorem ncols_matmulLL {a : LL} (b : LL) (ha : a ≠ []) :
    ncols (matmulLL a b) = ncols b := by
  cases a with
  | nil => simp at ha
  | cons r t => simp [matmulLL, ncols]

/-- Column length. -/
theorem getCol_length (j : ℕ) (m : LL) : (getCol j m).length = m.length := by
  simp [getCol]

/-- Transpose row count. -/
theorem transposeLL_length (m : LL) : (transposeLL m).length = ncols m := by
  simp [transposeLL]

/-- Transpose column count (for an array with at least one column). -/
theorem ncols_transposeLL {m : LL} (hm : 0 < ncols m) :
    ncols (transposeLL m) = m.length := by
  obtain ⟨k, hk⟩ : ∃ k, ncols m = k + 1 := ⟨ncols m - 1, by omega⟩
  rw [transposeLL, hk, List.range_succ_eq_map]
  simp [ncols, getCol_length]

/-- Length of an elementwise sum. -/
theorem addLL_length (u v : LL) : (addLL u v).length = min u.length v.length := by
  simp [addLL]

/-- Rectangularity of an elementwise sum. -/
theorem rect_addLL {u v : LL} {d : ℕ} (hu : rect u d) (hv : rect v d) :
    rect (addLL u v) d := by
  induction u generalizing v with
  | nil => intro r hr; simp [addLL] at hr
  | cons p ps ih =>
    cases v with
    | nil => intro r hr; simp [addLL] at hr
    | cons q qs =>
      intro r hr
      simp only [addLL, List.zipWith_cons_cons, List.mem_cons] at hr
      rcases hr with rfl | hr
      · rw [List.length_zipWith, hu p (by simp), hv q (by simp), min_self]
      · exact ih (fun s hs => hu s (List.mem_cons_of_mem _ hs))
          (fun s hs => hv s (List.mem_cons_of_mem _ hs)) r hr

/-- Rectangularity of a rowwise concatenation. -/
theorem rect_zipWith_append {u v : LL} {a b : ℕ} (hu : rect u a) (hv : rect v b) :
    rect (List.zipWith (· ++ ·) u v) (a + b) := by
  induction u generalizing v with
  | nil => intro r hr; simp at hr
  | cons p ps ih =>
    cases v with
    | nil => intro r hr; simp at hr
    | cons q qs =>
      intro r hr
      simp only [List.zipWith_cons_cons, List.mem_cons] at hr
      rcases hr with rfl | hr
      · rw [List.length_append, hu p (by simp), hv q (by simp)]
      · exact ih (fun s hs => hu s (List.mem_cons_of_mem _ hs))
          (fun s hs => hv s (List.mem_cons_of_mem _ hs)) r hr

/-- Length of a column slice. -/
theorem colSlice_length (lo hi : ℕ) (m : LL) : (colSlice lo hi m).length = m.length := by
  simp [colSlice]

/-- Rectangularity of a column slice within bounds. -/
theorem rect_colSlice {m : LL} {d lo hi : ℕ} (hr : rect m d) (hhi : hi ≤ d) :
    rect (colSlice lo hi m) (hi - lo) := by
  intro r hrm
  simp only [colSlice, List.mem_map] at hrm
  obtain ⟨row, hrow, rfl⟩ := hrm
  rw [List.length_take, List.length_drop, hr row hrow]
  omega

/-- The container's boundary offsets (the sums of the extent prefixes,
excluding the final boundary) are the running cumulative bounds. -/
theorem cumBounds_eq_take_sums (es : List ℕ) :
    ∀ off, (List.range (es.length - 1)).map (fun i => off + (es.take (i + 1)).sum) =
      cumBounds es off := by
  induction es with
  | nil => intro off; simp [cumBounds]
  | cons e rest ih =>
    intro off
    cases rest with
    | nil => simp [cumBounds]
    | cons r rs =>
      have htail := ih (off + e)
      simp only [List.length_cons, Nat.add_sub_cancel] at htail ⊢
      rw [List.range_succ_eq_map, List.map_cons, List.map_map]
      simp only [cumBounds]
      rw [← htail]
      have hfun : List.map
          ((fun i => off + (List.take (i + 1) (e :: r :: rs)).sum) ∘ Nat.succ)
          (List.range rs.length) =
          List.map (fun i => off + e + (List.take (i + 1) (r :: rs)).sum)
            (List.range rs.length) := by
        refine List.map_congr_left ?_
        intro i _
        simp only [Function.comp_apply, List.take_succ_cons, List.sum_cons]
        omega
      rw [hfun]
      simp

/-- The chunks produced by splitting the upstream gradient at the
cumulative boundaries, fed child by child to the bound backward
procedures, are exactly the spec-side per-child slices. -/
theorem parCall_chunks_spec (G : Type) (ms : List (CModule G)) :
    ∀ (x dy : LL) (off : ℕ),
      ncols dy = off + (ms.map (fun m => ncols ((m x).1))).sum →
      List.zipWith (fun (c : LL) (yr : LL × (LL → G × LL)) => (yr.2 c).2)
        ((List.zip (off :: cumBounds (ms.map (fun m => ncols ((m x).1))) off)
            (cumBounds (ms.map (fun m => ncols ((m x).1))) off ++ [ncols dy])).map
          (fun p => colSlice p.1 p.2 dy))
        (ms.map (fun m => m x)) = parSpecParts G ms x off dy := by
  induction ms with
  | nil => intro x dy off h; simp [parSpecParts]
  | cons m rest ih =>
    intro x dy off h
    cases rest with
    | nil =>
      simp only [List.map_cons, List.map_nil, List.sum_cons, List.sum_nil,
        Nat.add_zero] at h
      simp only [List.map_cons, List.map_nil, cumBounds, parSpecParts,
        List.nil_append, List.zip_cons_cons, List.zip_nil_right,
        List.zipWith_cons_cons, List.zipWith_nil_right]
      rw [h]
    | cons r rs =>
      have hh : ncols dy =
          (off + ncols ((m x).1)) + ((r :: rs).map (fun mm => ncols ((mm x).1))).sum := by
        simp only [List.map_cons, List.sum_cons] at h ⊢
        rw [h]
        exact (Nat.add_assoc _ _ _).symm
      have htl := ih x dy (off + ncols ((m x).1)) hh
      rw [show parSpecParts G (m :: r :: rs) x off dy =
        ((m x).2 (colSlice off (off + ncols ((m x).1)) dy)).2 ::
          parSpecParts G (r :: rs) x (off + ncols ((m x).1)) dy from rfl]
      rw [← htl]
      simp only [List.map_cons, cumBounds, List.cons_append, List.zip_cons_cons,
        List.zipWith_cons_cons]

/-- C4: in training mode, for a Parallel container over ANY list of
children, the installed backward splits the upstream gradient at the
running cumulative sums of the recorded output extents (excluding the
final boundary), passes the i-th slice to the i-th child's bound
backward and returns the elementwise sum of all the children's input
gradients; moreover, for two affine children of widths `a` and `b` on
an `(N, D)` input, forward concatenates to a `(N, a+b)` output and
backward returns a single `(N, D)` gradient. -/
theorem c4_parallel_container (N D a b : ℕ) (W1 W2 x dy : LL)
    (hxN : x.length = N) (_hxr : rect x D) (hN : 0 < N)
    (hW1l : W1.length = D) (hW1r : rect W1 a) (hD : 0 < D)
    (ha : 0 < a) (hb : 0 < b)
    (hW2l : W2.length = D) (hW2r : rect W2 b)
    (hdyl : dy.length = N) (hdyr : rect dy (a + b)) :
    (∀ (G : Type) (ms : List (CModule G)) (xg dyg : LL),
      ncols dyg = (ms.map (fun m => ncols ((m xg).1))).sum →
      (parCall G true ms xg).2.map (fun f => (f dyg).2) =
        some (sumParts (parSpecParts G ms xg 0 dyg))) ∧
    ((parCall LL true [affineModule W1, affineModule W2] x).1.length = N ∧
      rect (parCall LL true [affineModule W1, affineModule W2] x).1 (a + b)) ∧
    (parCall LL true [affineModule W1, affineModule W2] x).2.map (fun f => (f dy).2) =
      some (addLL ((affineModule W1 x).2 (colSlice 0 a dy)).2
                  ((affineModule W2 x).2 (colSlice a (a + b) dy)).2) ∧
    (addLL ((affineModule W1 x).2 (colSlice 0 a dy)).2
           ((affineModule W2 x).2 (colSlice a (a + b) dy)).2).length = N ∧
    rect (addLL ((affineModule W1 x).2 (colSlice 0 a dy)).2
                ((affineModule W2 x).2 (colSlice a (a + b) dy)).2) D := by
  have hxne : x ≠ [] := by intro e; rw [e] at hxN; simp at hxN; omega
  have hW1ne : W1 ≠ [] := by intro e; rw [e] at hW1l; simp at hW1l; omega
  have hW2ne : W2 ≠ [] := by intro e; rw [e] at hW2l; simp at hW2l; omega
  have hdyne : dy ≠ [] := by intro e; rw [e] at hdyl; simp at hdyl; omega
  have ea : ncols (matmulLL x W1) = a :=
    (ncols_matmulLL W1 hxne).trans (ncols_of_rect hW1ne hW1r)
  have eb : ncols (matmulLL x W2) = b :=
    (ncols_matmulLL W2 hxne).trans (ncols_of_rect hW2ne hW2r)
  have edy : ncols dy = a + b := ncols_of_rect hdyne hdyr
  have er1 : rect (matmulLL x W1) a := by
    have t := matmulLL_rect x W1
    rwa [ncols_of_rect hW1ne hW1r] at t
  have er2 : rect (matmulLL x W2) b := by
    have t := matmulLL_rect x W2
    rwa [ncols_of_rect hW2ne hW2r] at t
  have et1 : ncols (transposeLL W1) = D := by
    rw [ncols_transposeLL (by rw [ncols_of_rect hW1ne hW1r]; exact ha), hW1l]
  have et2 : ncols (transposeLL W2) = D := by
    rw [ncols_transposeLL (by rw [ncols_of_rect hW2ne hW2r]; exact hb), hW2l]
  refine ⟨?_, ⟨?_, ?_⟩, ?_, ?_, ?_⟩
  · intro G ms xg dyg hdy
    simp only [parCall, if_true, Option.map_some]
    refine congrArg some (congrArg sumParts ?_)
    rw [List.map_zipWith]
    have hsplit : (List.range (((ms.map (fun m => m xg)).map
          (fun yr => ncols yr.1)).length - 1)).map
        (fun i => (((ms.map (fun m => m xg)).map (fun yr => ncols yr.1)).take
          (i + 1)).sum) =
        cumBounds (ms.map (fun m => ncols ((m xg).1))) 0 := by
      simp only [List.map_map, Function.comp_def]
      rw [← cumBounds_eq_take_sums (ms.map (fun m => ncols ((m xg).1))) 0]
      refine List.map_congr_left ?_
      intro i _
      exact (Nat.zero_add _).symm
    rw [hsplit]
    have hdy0 : ncols dyg = 0 + (ms.map (fun m => ncols ((m xg).1))).sum := by
      rw [Nat.zero_add]; exact hdy
    exact parCall_chunks_spec G ms xg dyg 0 hdy0
  · show (List.zipWith (· ++ ·) (matmulLL x W1) (matmulLL x W2)).length = N
    rw [List.length_zipWith, matmulLL_length, matmulLL_length, hxN, min_self]
  · exact rect_zipWith_append er1 er2
  · simp only [parCall, if_true, Option.map_some, affineModule, List.map_cons,
      List.map_nil, List.length_cons, List.length_nil]
    simp only [ea, eb, edy]
    simp [npsplit, sumParts, List.range_succ, edy]
  · show (addLL (matmulLL (colSlice 0 a dy) (transposeLL W1))
        (matmulLL (colSlice a (a + b) dy) (transposeLL W2))).length = N
    rw [addLL_length, matmulLL_length, matmulLL_length, colSlice_length,
      colSlice_length, hdyl, min_self]
  · show rect (addLL (matmulLL (colSlice 0 a dy) (transposeLL W1))
        (matmulLL (colSlice a (a + b) dy) (transposeLL W2))) D
    refine rect_addLL ?_ ?_
    · have t := matmulLL_rect (colSlice 0 a dy) (transposeLL W1)
      rwa [et1] at t
    · have t := matmulLL_rect (colSlice a (a + b) dy) (transposeLL W2)
      rwa [et2] at t

/-- Witness for C4 at `N = D = a = b = 1`: children with weights `[[2]]`
and `[[3]]`, input `[[1]]`, upstream gradient `[[5, 7]]` — forward
concatenates to `[[2, 3]]` and backward sums `5·2 + 7·3 = 31`. -/
theorem c4_witness :
    (parCall LL true [affineModule [[2]], affineModule [[3]]] [[1]]).2.map
        (fun f => (f [[5, 7]]).2) = some [[31]] ∧
    (parCall LL true [affineModule [[2]], affineModule [[3]]] [[1]]).1 = [[2, 3]] ∧
    (parCall LL true [affineModule [[2]], affineModule [[3]]] [[1]]).2.map
        (fun f => (f [[5, 7]]).2) =
      some (sumParts (parSpecParts LL [affineModule [[2]], affineModule [[3]]]
        [[1]] 0 [[5, 7]])) := by
  have h := c4_parallel_container 1 1 1 1 [[2]] [[3]] [[1]] [[5, 7]]
    rfl (by simp [rect]) (by decide) rfl (by simp [rect]) (by decide) (by decide)
    (by decide) rfl (by simp [rect]) rfl (by simp [rect])
  refine ⟨h.2.2.1.trans ?_, ?_, h.1 LL [affineModule [[2]], affineModule [[3]]]
    [[1]] [[5, 7]] (by decide)⟩
  · simp [affineModule, addLL, matmulLL, transposeLL, getCol, ncols, dotQ, colSlice,
      List.range_succ]
    norm_num
  · simp [parCall, hconcat, affineModule, matmulLL, transposeLL, getCol, ncols, dotQ,
      List.range_succ]

end Spec2Proof
